import Mathlib

set_option maxRecDepth 20000

/-!
# Vortex VM: a shallow embedding of the `vortex-vm` repository

This file embeds the core of the Rust repository `vortex-vm`:

* `src/instruction.rs` — the `Instruction` type,
* `src/run.rs` — the execution engine (`execute` and its helpers),
* `src/spliter.rs` — the assembler front end (`split_instructions`),
* `src/assembler.rs` — the binary codec (`serialize_instructions` /
  `deserialize_instructions`),

and proves the specification claims about them.

Modelling conventions:

* `i32` values are `Int`s; two's-complement wrap-around (release-mode Rust
  semantics) is made explicit with `wrap32` where the source performs
  arithmetic that may overflow.  Operations that panic in every Rust build
  profile — out-of-bounds slice indexing and `i32` division overflow — are
  modelled as an explicit panic outcome (`Option`-valued helpers, and the
  `ExecResult.panicked` outcome of the engine).
* `usize` values are `Nat`s; `as usize` casts of `i32` sign-extend and
  bit-cast, i.e. reduce the integer modulo `2^64`, and `usize` additions
  wrap modulo `2^64` (release semantics).
* The Rust `Vec<i32>` operand stack is a `List Int` in the same order:
  the *last* element of the list is the top of the stack (`Vec::push`
  appends at the tail).
* The execution loop of `run.rs` may not terminate (backwards jumps), so
  the engine is a fuel-indexed iteration of a single-instruction step
  function; `ExecResult.fuelOut` is the out-of-fuel artifact of the model
  and is never produced when enough fuel is supplied.
-/

/-! ## Machine integers -/

/-- Two's-complement wrap of an integer into the `i32` range
`[-2^31, 2^31)` — release-mode Rust overflow semantics. -/
def wrap32 (x : Int) : Int :=
  (x + 2147483648) % 4294967296 - 2147483648

/-- The `i32` range predicate (Bool-valued so it can be decided). -/
def i32Range (x : Int) : Bool :=
  -2147483648 ≤ x ∧ x < 2147483648

/-- `v as usize` for an `i32` value `v`: sign-extend to 64 bits and
bit-cast, i.e. reduce modulo `2^64`. -/
def usizeOfI32 (v : Int) : Nat :=
  (v % 18446744073709551616).toNat

/-- `n as i32` for a `usize` value `n`: truncate to 32 bits and
reinterpret as two's complement. -/
def i32OfUsize (n : Nat) : Int :=
  let m := n % 4294967296
  if m < 2147483648 then (m : Int) else (m : Int) - 4294967296

/-- `v as u8` for an `i32` value `v`: the low byte. -/
def u8OfI32 (v : Int) : Nat :=
  (v % 256).toNat

/-! ## Characters and strings -/

/-- Whitespace as recognised by Rust's `char::is_whitespace`, restricted
to the ASCII range (the only characters exercised by assembly sources). -/
def isWsChar (c : Char) : Bool :=
  c = ' ' ∨ c = '\t' ∨ c = '\n' ∨ c = '\r'

/-- ASCII decimal digit test. -/
def isDigitChar (c : Char) : Bool :=
  48 ≤ c.toNat ∧ c.toNat ≤ 57

/-- Numeric value of a digit string (most significant digit first). -/
def digitsVal (ds : List Char) : Nat :=
  ds.foldl (fun acc c => acc * 10 + (c.toNat - 48)) 0

/-- Rust `str::parse::<usize>`: an optional leading `+`, then one or more
decimal digits, value at most `usize::MAX`. -/
def parseUsizeChars (cs : List Char) : Option Nat :=
  let ds := match cs with
    | '+' :: rest => rest
    | _ => cs
  if ds ≠ [] ∧ ds.all isDigitChar then
    let v := digitsVal ds
    if v < 18446744073709551616 then some v else none
  else none

/-- Rust `str::parse::<usize>` on a `String`. -/
def parseUsizeStr (s : String) : Option Nat :=
  parseUsizeChars s.data

/-- Rust `str::parse::<i32>`: an optional sign, then one or more decimal
digits, value within the `i32` range. -/
def parseI32Chars (cs : List Char) : Option Int :=
  match cs with
  | '+' :: ds => parseI32Digits ds false
  | '-' :: ds => parseI32Digits ds true
  | ds => parseI32Digits ds false
where
  parseI32Digits (ds : List Char) (neg : Bool) : Option Int :=
    if ds ≠ [] ∧ ds.all isDigitChar then
      let v := digitsVal ds
      if neg then
        if v ≤ 2147483648 then some (-(v : Int)) else none
      else
        if v ≤ 2147483647 then some (v : Int) else none
    else none

/-- Decimal rendering of a `usize`/`Nat`, as Rust's `usize::to_string`
produces it (structural fuel recursion so that it evaluates by `decide`;
`fuel = n + 1` always suffices since `n / 10 < n` for `n ≥ 10`). -/
def natDecimalAux : Nat → Nat → List Char
  | 0, _ => []
  | fuel + 1, n =>
    if n < 10 then [Char.ofNat (48 + n)]
    else natDecimalAux fuel (n / 10) ++ [Char.ofNat (48 + n % 10)]

/-- Decimal rendering of a `Nat` as a `String`. -/
def natToDecimal (n : Nat) : String :=
  String.mk (natDecimalAux (n + 1) n)

/-! ## UTF-8 (Rust `str::as_bytes` and `String::from_utf8`) -/

/-- UTF-8 encoding of a single Unicode code point. -/
def utf8EncodeChar (c : Nat) : List Nat :=
  if c < 128 then [c]
  else if c < 2048 then [192 + c / 64, 128 + c % 64]
  else if c < 65536 then [224 + c / 4096, 128 + c / 64 % 64, 128 + c % 64]
  else [240 + c / 262144, 128 + c / 4096 % 64, 128 + c / 64 % 64, 128 + c % 64]

/-- UTF-8 bytes of a string (Rust `str::as_bytes`). -/
def utf8Encode (s : String) : List Nat :=
  s.data.flatMap (fun c => utf8EncodeChar c.toNat)

/-- UTF-8 continuation byte test. -/
def isUtf8Cont (b : Nat) : Bool :=
  128 ≤ b ∧ b ≤ 191

/-- One character of strict UTF-8 decoding, as validated by Rust's
`String::from_utf8` (rejects overlong forms, surrogates and values above
`0x10FFFF`): the decoded code point and the remaining bytes, or `none`
for an invalid sequence. -/
def utf8DecodeStep (b : Nat) (rest : List Nat) : Option (Nat × List Nat) :=
  if b ≤ 127 then some (b, rest)
  else if 194 ≤ b ∧ b ≤ 223 then
    match rest with
    | b1 :: rest1 =>
      if isUtf8Cont b1 then some ((b - 192) * 64 + (b1 - 128), rest1)
      else none
    | [] => none
  else if 224 ≤ b ∧ b ≤ 239 then
    match rest with
    | b1 :: b2 :: rest2 =>
      let okB1 : Bool :=
        if b = 224 then 160 ≤ b1 ∧ b1 ≤ 191
        else if b = 237 then 128 ≤ b1 ∧ b1 ≤ 159
        else isUtf8Cont b1
      if okB1 ∧ isUtf8Cont b2 then
        some ((b - 224) * 4096 + (b1 - 128) * 64 + (b2 - 128), rest2)
      else none
    | _ => none
  else if 240 ≤ b ∧ b ≤ 244 then
    match rest with
    | b1 :: b2 :: b3 :: rest3 =>
      let okB1 : Bool :=
        if b = 240 then 144 ≤ b1 ∧ b1 ≤ 191
        else if b = 244 then 128 ≤ b1 ∧ b1 ≤ 143
        else isUtf8Cont b1
      if okB1 ∧ isUtf8Cont b2 ∧ isUtf8Cont b3 then
        some ((b - 240) * 262144 + (b1 - 128) * 4096 +
          (b2 - 128) * 64 + (b3 - 128), rest3)
      else none
    | _ => none
  else none

/-- The remaining bytes of a successful `utf8DecodeStep` never grow. -/
theorem utf8DecodeStep_length {b : Nat} {rest rest2 : List Nat} {cp : Nat}
    (h : utf8DecodeStep b rest = some (cp, rest2)) :
    rest2.length ≤ rest.length := by
  unfold utf8DecodeStep at h
  repeat' split at h
  all_goals simp_all
  all_goals omega

/-- Strict UTF-8 decoding of a whole byte list (Rust
`String::from_utf8`). -/
def utf8Decode : List Nat → Option (List Char)
  | [] => some []
  | b :: rest =>
    match h : utf8DecodeStep b rest with
    | none => none
    | some (cp, rest2) => (utf8Decode rest2).map (Char.ofNat cp :: ·)
termination_by bytes => bytes.length
decreasing_by
  have := utf8DecodeStep_length h
  simp
  omega

/-- Unfolding lemma for `utf8Decode` at a successful first character. -/
theorem utf8Decode_cons {b : Nat} {rest rest2 : List Nat} {cp : Nat}
    (h : utf8DecodeStep b rest = some (cp, rest2)) :
    utf8Decode (b :: rest) = (utf8Decode rest2).map (Char.ofNat cp :: ·) := by
  conv_lhs => unfold utf8Decode
  split
  · rename_i heq
    rw [h] at heq
    exact absurd heq (by simp)
  · rename_i cp2 rest3 heq
    rw [h] at heq
    injection heq with heq2
    injection heq2 with h1 h2
    subst h1
    subst h2
    rfl

/-! ## The instruction set (`src/instruction.rs`) -/

/-- The `Instruction` enum of `src/instruction.rs`.  Jump targets are
strings (symbolic before label resolution, a decimal address after). -/
inductive Instruction where
  | Null
  | Push (value : Int)
  | Dup
  | Swap
  | Pop
  | Ret
  | Jiz (target : String)
  | Jnz (target : String)
  | AddS (n : Int)
  | Add
  | SubS (n : Int)
  | Sub
  | MultS (n : Int)
  | Mult
  | DivS (n : Int)
  | Div
  | MemWrite (startAddr : Int) (values : List Int)
  | MemWriteS (memoryIndex : Int) (writeLen : Int)
  | MemRead (index : Int)
  | Print (startAddr : Int) (length : Int)
deriving DecidableEq, Repr

/-! ## The execution engine (`src/run.rs`) -/

/-- Tail-recursive list length (accumulator form), used for `Vec::len`
on the 2048-cell memory so that concrete runs evaluate with constant
stack depth.  `vecLen_eq` identifies it with `List.length`. -/
def vecLenAux : List Int → Nat → Nat
  | _ :: _ :: _ :: _ :: _ :: _ :: _ :: _ :: t, acc => vecLenAux t (acc + 8)
  | _ :: t, acc => vecLenAux t (acc + 1)
  | [], acc => acc

/-- `Vec::len`, tail-recursive. -/
def vecLen (l : List Int) : Nat := vecLenAux l 0

theorem vecLenAux_eq (l : List Int) (acc : Nat) :
    vecLenAux l acc = l.length + acc := by
  induction l, acc using vecLenAux.induct with
  | case1 a b c d e f g h t acc ih => simp [vecLenAux, ih]; omega
  | case2 a t acc ih => simp [vecLenAux, ih]; omega
  | case3 acc => simp [vecLenAux]

@[simp] theorem vecLen_eq (l : List Int) : vecLen l = l.length := by
  simp [vecLen, vecLenAux_eq]

/-- `Vec::pop`: the top of the stack together with the remaining stack,
or `none` on an empty stack. -/
def vecPop (stack : List Int) : Option (Int × List Int) :=
  match stack.getLast? with
  | some v => some (v, stack.dropLast)
  | none => none

/-- `execute_jiz` of `src/run.rs`: jump if the (present) top of stack is
zero and the target parses as an in-range `usize`; otherwise fall through
to `current_i + 1`. -/
def execute_jiz (stack : List Int) (instructions : List Instruction)
    (current_i : Nat) (target : String) : Nat :=
  match stack.getLast? with
  | some val =>
    if val = 0 then
      match parseUsizeStr target with
      | some addr => if addr < instructions.length then addr else current_i + 1
      | none => current_i + 1
    else current_i + 1
  | none => current_i + 1

/-- `execute_jnz` of `src/run.rs`: jump if the (present) top of stack is
non-zero and the target parses as an in-range `usize`. -/
def execute_jnz (stack : List Int) (instructions : List Instruction)
    (current_i : Nat) (target : String) : Nat :=
  match stack.getLast? with
  | some val =>
    if val ≠ 0 then
      match parseUsizeStr target with
      | some addr => if addr < instructions.length then addr else current_i + 1
      | none => current_i + 1
    else current_i + 1
  | none => current_i + 1

/-- `execute_adds` of `src/run.rs`. -/
def execute_adds (stack : List Int) (n : Int) : List Int :=
  match vecPop stack with
  | some (val, rest) => rest ++ [wrap32 (val + n)]
  | none => stack

/-- `execute_add` of `src/run.rs`. -/
def execute_add (stack : List Int) : List Int :=
  if 2 ≤ stack.length then
    match vecPop stack with
    | some (a, s1) =>
      match vecPop s1 with
      | some (b, s2) => s2 ++ [wrap32 (b + a)]
      | none => s1
    | none => stack
  else stack

/-- `execute_subs` of `src/run.rs`. -/
def execute_subs (stack : List Int) (n : Int) : List Int :=
  match vecPop stack with
  | some (val, rest) => rest ++ [wrap32 (val - n)]
  | none => stack

/-- `execute_sub` of `src/run.rs`. -/
def execute_sub (stack : List Int) : List Int :=
  if 2 ≤ stack.length then
    match vecPop stack with
    | some (a, s1) =>
      match vecPop s1 with
      | some (b, s2) => s2 ++ [wrap32 (b - a)]
      | none => s1
    | none => stack
  else stack

/-- `execute_divs` of `src/run.rs`: mutate the top in place when the
immediate is non-zero.  `i32` division overflow (`i32::MIN / -1`) panics
in Rust, modelled as `none`. -/
def execute_divs (stack : List Int) (n : Int) : Option (List Int) :=
  match vecPop stack with
  | some (val, rest) =>
    if n ≠ 0 then
      if val = -2147483648 ∧ n = -1 then none
      else some (rest ++ [Int.tdiv val n])
    else some stack
  | none => some stack

/-- `execute_div` of `src/run.rs`: pop two; push quotient only when the
divisor (the popped top) is non-zero.  Division overflow panics. -/
def execute_div (stack : List Int) : Option (List Int) :=
  if 2 ≤ stack.length then
    match vecPop stack with
    | some (a, s1) =>
      match vecPop s1 with
      | some (b, s2) =>
        if a ≠ 0 then
          if b = -2147483648 ∧ a = -1 then none
          else some (s2 ++ [Int.tdiv b a])
        else some s2
      | none => some s1
    | none => some stack
  else some stack

/-- `execute_mults` of `src/run.rs`: mutate the top in place. -/
def execute_mults (stack : List Int) (n : Int) : List Int :=
  match vecPop stack with
  | some (val, rest) => rest ++ [wrap32 (val * n)]
  | none => stack

/-- `execute_mult` of `src/run.rs`. -/
def execute_mult (stack : List Int) : List Int :=
  if 2 ≤ stack.length then
    match vecPop stack with
    | some (a, s1) =>
      match vecPop s1 with
      | some (b, s2) => s2 ++ [wrap32 (b * a)]
      | none => s1
    | none => stack
  else stack

/-- `execute_dup` of `src/run.rs`. -/
def execute_dup (stack : List Int) : List Int :=
  match stack.getLast? with
  | some val => stack ++ [val]
  | none => stack

/-- `execute_swap` of `src/run.rs`: pop `a` then `b`, push `a` then `b`. -/
def execute_swap (stack : List Int) : List Int :=
  if 2 ≤ stack.length then
    match vecPop stack with
    | some (a, s1) =>
      match vecPop s1 with
      | some (b, s2) => s2 ++ [a, b]
      | none => s1
    | none => stack
  else stack

/-- The inner write loop of `execute_memwrite`: for each value index `j`,
write `values[j]` to `start_addr as usize + j` when that index is within
the memory (the `usize` addition wraps modulo `2^64`). -/
def memwriteLoop (mem : List Int) (base : Nat) (j : Nat) :
    List Int → List Int
  | [] => mem
  | v :: vs =>
    let idx := (base + j) % 18446744073709551616
    let mem' := if idx < vecLen mem then mem.set idx v else mem
    memwriteLoop mem' base (j + 1) vs

/-- `execute_memwrite` of `src/run.rs`: guarded only by
`start_addr < 2048` (an `i32` comparison), then per-index bounds checks. -/
def execute_memwrite (mem : List Int) (start_addr : Int)
    (values : List Int) : List Int :=
  if start_addr < 2048 then
    memwriteLoop mem (usizeOfI32 start_addr) 0 values
  else mem

/-- The write-back loop of `execute_memwrites`:
`mem[memory_index as usize + offset] = writes[offset]`; an out-of-bounds
index panics (`none`). -/
def memStoreLoop (mem : List Int) (mi : Nat) (offset : Nat) :
    List Int → Option (List Int)
  | [] => some mem
  | v :: vs =>
    let idx := (mi + offset) % 18446744073709551616
    if idx < vecLen mem then
      memStoreLoop (mem.set idx v) mi (offset + 1) vs
    else none

/-- `execute_memwrites` of `src/run.rs`: up-front bounds check of
`memory_index as usize + write_len as usize` (wrapping) against the
memory size; pop up to `write_len` values (stopping at underflow),
reverse them back into push order, and write them starting at
`memory_index as usize`. -/
def execute_memwrites (stack mem : List Int) (memory_index write_len : Int) :
    Option (List Int × List Int) :=
  let mi := usizeOfI32 memory_index
  let wl := usizeOfI32 write_len
  if (mi + wl) % 18446744073709551616 ≤ vecLen mem then
    let k := min wl stack.length
    let writes := stack.drop (stack.length - k)
    let newStack := stack.take (stack.length - k)
    match memStoreLoop mem mi 0 writes with
    | some mem' => some (newStack, mem')
    | none => none
  else
    some (stack, mem)

/-- `execute_memread` of `src/run.rs`: rejects only `index >= len as i32`;
any other index is used directly as `mem[index as usize]`, so a negative
index panics (`none`). -/
def execute_memread (stack mem : List Int) (index : Int) :
    Option (List Int) :=
  if i32OfUsize (vecLen mem) ≤ index then
    some stack
  else
    let idx := usizeOfI32 index
    if idx < vecLen mem then some (stack ++ [mem.getD idx 0]) else none

/-- `execute_print` of `src/run.rs`: bounds-check
`start + length as usize` (wrapping `usize` arithmetic) against the
memory size; when valid, format each cell of
`mem.iter().take(end).skip(start)` as the character whose code point is
the cell's low byte, appending that character's UTF-8 bytes to the output
buffer. -/
def execute_print (output_buffer : List Nat) (mem : List Int)
    (start_addr : Int) (length : Int) : List Nat :=
  let start := usizeOfI32 start_addr
  let stop := (start + usizeOfI32 length) % 18446744073709551616
  if stop ≤ vecLen mem then
    output_buffer ++
      ((mem.take stop).drop start).flatMap
        (fun v => utf8EncodeChar (u8OfI32 v))
  else
    output_buffer

/-- The outcome of executing one instruction of `execute`'s loop. -/
inductive StepOut where
  | cont (stack mem : List Int) (i : Nat) (out : List Nat)
  | halted (stack mem : List Int) (out : List Nat)
  | panicked
deriving DecidableEq, Repr

/-- The final outcome of a run of `execute`.  `fuelOut` is the model's
out-of-fuel artifact (the Rust loop has no fuel; supplying enough fuel
avoids it). -/
inductive ExecResult where
  | done (stack mem : List Int) (out : List Nat)
  | panicked
  | fuelOut
deriving DecidableEq, Repr

/-- One iteration of the `while i < instructions.len()` loop of
`execute` in `src/run.rs`. -/
def stepInstr (prog : List Instruction) (stack mem : List Int) (i : Nat)
    (out : List Nat) : StepOut :=
  if h : i < prog.length then
    match prog[i] with
    | .Null => .cont stack mem (i + 1) out
    | .Push v => .cont (stack ++ [v]) mem (i + 1) out
    | .Pop => .cont stack.dropLast mem (i + 1) out
    | .Ret => .halted stack mem out
    | .Jiz t => .cont stack mem (execute_jiz stack prog i t) out
    | .Jnz t => .cont stack mem (execute_jnz stack prog i t) out
    | .AddS n => .cont (execute_adds stack n) mem (i + 1) out
    | .Add => .cont (execute_add stack) mem (i + 1) out
    | .SubS n => .cont (execute_subs stack n) mem (i + 1) out
    | .Sub => .cont (execute_sub stack) mem (i + 1) out
    | .Dup => .cont (execute_dup stack) mem (i + 1) out
    | .Swap => .cont (execute_swap stack) mem (i + 1) out
    | .DivS n =>
      match execute_divs stack n with
      | some s => .cont s mem (i + 1) out
      | none => .panicked
    | .Div =>
      match execute_div stack with
      | some s => .cont s mem (i + 1) out
      | none => .panicked
    | .MultS n => .cont (execute_mults stack n) mem (i + 1) out
    | .Mult => .cont (execute_mult stack) mem (i + 1) out
    | .MemWrite a vs => .cont stack (execute_memwrite mem a vs) (i + 1) out
    | .Print a l => .cont stack mem (i + 1) (execute_print out mem a l)
    | .MemRead a =>
      match execute_memread stack mem a with
      | some s => .cont s mem (i + 1) out
      | none => .panicked
    | .MemWriteS a l =>
      match execute_memwrites stack mem a l with
      | some (s, m) => .cont s m (i + 1) out
      | none => .panicked
  else .halted stack mem out

/-- Fuel-indexed iteration of `stepInstr`. -/
def execGo (prog : List Instruction) :
    Nat → List Int → List Int → Nat → List Nat → ExecResult
  | 0, _, _, _, _ => .fuelOut
  | fuel + 1, stack, mem, i, out =>
    match stepInstr prog stack mem i out with
    | .halted s m o => .done s m o
    | .panicked => .panicked
    | .cont s m i' o => execGo prog fuel s m i' o

/-- `execute` of `src/run.rs`: empty stack, a fresh 2048-cell
zero-initialized memory, instruction pointer 0, empty output buffer. -/
def executeProgram (fuel : Nat) (prog : List Instruction) : ExecResult :=
  execGo prog fuel [] (List.replicate 2048 0) 0 []

/-- The final stack of a completed run (observer; avoids comparing the
whole 2048-cell memory). -/
def resultStack : ExecResult → Option (List Int)
  | .done s _ _ => some s
  | _ => none

/-- The first `n` cells of the final memory of a completed run. -/
def resultMemTake (n : Nat) : ExecResult → Option (List Int)
  | .done _ m _ => some (m.take n)
  | _ => none

/-- The output bytes of a completed run. -/
def resultOut : ExecResult → Option (List Nat)
  | .done _ _ o => some o
  | _ => none

example :
    resultStack (executeProgram 10 [.Push 5, .Push 3, .Add, .Ret]) =
      some [8] := by decide

example :
    resultStack (executeProgram 20 [.Push 3, .SubS 1, .Jnz "1", .Ret]) =
      some [0] := by decide

example :
    executeProgram 10 [.MemRead (-1), .Ret] = .panicked := by decide

example :
    resultMemTake 6 (executeProgram 10
      [.MemWrite 0 [72, 101, 108, 108, 111], .Print 0 5, .Ret]) =
      some [72, 101, 108, 108, 111, 0] := by decide

example :
    resultOut (executeProgram 10
      [.MemWrite 0 [72, 101, 108, 108, 111], .Print 0 5, .Ret]) =
      some [72, 101, 108, 108, 111] := by decide

/-! ## The binary codec (`src/assembler.rs`) -/

/-- The four little-endian bytes of a 32-bit value `u < 2^32`. -/
def le4 (u : Nat) : List Nat :=
  [u % 256, u / 256 % 256, u / 65536 % 256, u / 16777216 % 256]

/-- `i32::to_le_bytes`: two's-complement little-endian encoding. -/
def i32ToLe (v : Int) : List Nat :=
  le4 ((v % 4294967296).toNat)

/-- `i32::from_le_bytes`. -/
def i32FromLe (b0 b1 b2 b3 : Nat) : Int :=
  let u := b0 + 256 * b1 + 65536 * b2 + 16777216 * b3
  if u < 2147483648 then (u : Int) else (u : Int) - 4294967296

/-- Read a little-endian `i32` at byte offset `i` (callers guard the
length, so the `getD` defaults are never taken). -/
def readI32 (bytes : List Nat) (i : Nat) : Int :=
  i32FromLe (bytes.getD i 0) (bytes.getD (i + 1) 0)
    (bytes.getD (i + 2) 0) (bytes.getD (i + 3) 0)

/-- Read a little-endian `u32` at byte offset `i`. -/
def readU32 (bytes : List Nat) (i : Nat) : Nat :=
  bytes.getD i 0 + 256 * bytes.getD (i + 1) 0 +
    65536 * bytes.getD (i + 2) 0 + 16777216 * bytes.getD (i + 3) 0

/-- `serialize_string` of `src/assembler.rs`: the string's UTF-8 bytes
followed by a single zero terminator. -/
def serialize_string (s : String) : List Nat :=
  utf8Encode s ++ [0]

/-- `serialize_instruction` of `src/assembler.rs`.  The `MemWrite` count
is `values.len() as u32` (truncated modulo `2^32`).  Writing to a `Vec`
cannot fail, so the `Result` of the source is always `Ok` and the model
returns the bytes directly. -/
def serialize_instruction : Instruction → List Nat
  | .Null => [0x00]
  | .Push v => 0x01 :: i32ToLe v
  | .Dup => [0x02]
  | .Swap => [0x03]
  | .Pop => [0x04]
  | .Ret => [0x05]
  | .Jiz t => 0x06 :: serialize_string t
  | .Jnz t => 0x07 :: serialize_string t
  | .AddS v => 0x08 :: i32ToLe v
  | .Add => [0x09]
  | .SubS v => 0x0A :: i32ToLe v
  | .Sub => [0x0B]
  | .MultS v => 0x0C :: i32ToLe v
  | .Mult => [0x0D]
  | .DivS v => 0x0E :: i32ToLe v
  | .Div => [0x0F]
  | .MemWrite addr values =>
    0x10 :: (i32ToLe addr ++ le4 (values.length % 4294967296) ++
      values.flatMap i32ToLe)
  | .MemWriteS addr len => 0x11 :: (i32ToLe addr ++ i32ToLe len)
  | .MemRead addr => 0x12 :: i32ToLe addr
  | .Print addr len => 0x13 :: (i32ToLe addr ++ i32ToLe len)

/-- `serialize_instructions` of `src/assembler.rs`. -/
def serialize_instructions (instructions : List Instruction) : List Nat :=
  instructions.flatMap serialize_instruction

/-- The scan of `deserialize_string`: the bytes strictly before the first
zero byte, or `none` when no zero byte occurs (unterminated). -/
def takeUntilZero : List Nat → Option (List Nat)
  | [] => none
  | b :: rest =>
    if b = 0 then some [] else (takeUntilZero rest).map (b :: ·)

/-- `deserialize_string` of `src/assembler.rs`: scan to the first zero
byte, validate UTF-8, and report the count of consumed bytes (string
plus terminator). -/
def deserialize_string (bytes : List Nat) : Except String (String × Nat) :=
  match takeUntilZero bytes with
  | none => .error "Unterminated string in bytecode"
  | some pre =>
    match utf8Decode pre with
    | none => .error "Invalid UTF-8 string in bytecode"
    | some chars => .ok (String.mk chars, pre.length + 1)

/-- The value-reading loop of the `MemWrite` case of
`deserialize_instruction`: read `count` little-endian `i32`s starting at
`offset`, returning them with the final offset. -/
def readVals (bytes : List Nat) (offset : Nat) :
    Nat → Except String (List Int × Nat)
  | 0 => .ok ([], offset)
  | count + 1 =>
    if bytes.length < offset + 4 then .error "Incomplete MemWrite values"
    else
      match readVals bytes (offset + 4) count with
      | .error e => .error e
      | .ok (vs, fin) => .ok (readI32 bytes offset :: vs, fin)

/-- The `0x10` (`MemWrite`) arm of `deserialize_instruction`: read the
address, the `u32` value count, then that many values. -/
def deserialize_memwrite_arm (bytes : List Nat) :
    Except String (Instruction × Nat) :=
  if bytes.length < 1 + 12 then .error "Incomplete MemWrite instruction"
  else
    let addr := readI32 bytes 1
    let len := readU32 bytes 5
    match readVals bytes 9 len with
    | .error e => .error e
    | .ok (values, fin) => .ok (.MemWrite addr values, fin)

/-- `deserialize_instruction` of `src/assembler.rs`: one instruction from
the front of the byte stream, together with the number of consumed
bytes. -/
def deserialize_instruction (bytes : List Nat) :
    Except String (Instruction × Nat) :=
  match bytes with
  | [] => .error "Empty bytecode"
  | opcode :: _ =>
    match opcode with
    | 0x00 => .ok (.Null, 1)
    | 0x01 =>
      if bytes.length < 1 + 4 then .error "Incomplete Push instruction"
      else .ok (.Push (readI32 bytes 1), 5)
    | 0x02 => .ok (.Dup, 1)
    | 0x03 => .ok (.Swap, 1)
    | 0x04 => .ok (.Pop, 1)
    | 0x05 => .ok (.Ret, 1)
    | 0x06 =>
      match deserialize_string (bytes.drop 1) with
      | .error e => .error e
      | .ok (target, consumed) => .ok (.Jiz target, 1 + consumed)
    | 0x07 =>
      match deserialize_string (bytes.drop 1) with
      | .error e => .error e
      | .ok (target, consumed) => .ok (.Jnz target, 1 + consumed)
    | 0x08 =>
      if bytes.length < 1 + 4 then .error "Incomplete AddS instruction"
      else .ok (.AddS (readI32 bytes 1), 5)
    | 0x09 => .ok (.Add, 1)
    | 0x0A =>
      if bytes.length < 1 + 4 then .error "Incomplete SubS instruction"
      else .ok (.SubS (readI32 bytes 1), 5)
    | 0x0B => .ok (.Sub, 1)
    | 0x0C =>
      if bytes.length < 1 + 4 then .error "Incomplete MultS instruction"
      else .ok (.MultS (readI32 bytes 1), 5)
    | 0x0D => .ok (.Mult, 1)
    | 0x0E =>
      if bytes.length < 1 + 4 then .error "Incomplete DivS instruction"
      else .ok (.DivS (readI32 bytes 1), 5)
    | 0x0F => .ok (.Div, 1)
    | 0x10 => deserialize_memwrite_arm bytes
    | 0x11 =>
      if bytes.length < 1 + 8 then .error "Incomplete MemWriteS instruction"
      else .ok (.MemWriteS (readI32 bytes 1) (readI32 bytes 5), 9)
    | 0x12 =>
      if bytes.length < 1 + 4 then .error "Incomplete MemRead instruction"
      else .ok (.MemRead (readI32 bytes 1), 5)
    | 0x13 =>
      if bytes.length < 1 + 8 then .error "Incomplete Print instruction"
      else .ok (.Print (readI32 bytes 1) (readI32 bytes 5), 9)
    | _ => .error "Unknown opcode"

theorem readVals_le {bytes : List Nat} {k off : Nat} {vs : List Int} {fin : Nat}
    (h : readVals bytes off k = .ok (vs, fin)) : off ≤ fin := by
  induction k generalizing off vs fin with
  | zero =>
    simp [readVals] at h
    omega
  | succ k ih =>
    unfold readVals at h
    split at h
    · exact absurd h (by simp)
    · split at h
      · exact absurd h (by simp)
      · rename_i vs' fin' heq
        simp at h
        have := ih heq
        omega

theorem deserialize_memwrite_arm_pos {bytes : List Nat}
    {ins : Instruction} {n : Nat}
    (h : deserialize_memwrite_arm bytes = .ok (ins, n)) : 1 ≤ n := by
  unfold deserialize_memwrite_arm at h
  split at h
  · exact absurd h (by simp)
  · dsimp only at h
    split at h
    · exact absurd h (by simp)
    · rename_i vs fin heq
      simp at h
      have := readVals_le heq
      omega

theorem deserialize_instruction_consumed_pos {bytes : List Nat}
    {ins : Instruction} {n : Nat}
    (h : deserialize_instruction bytes = .ok (ins, n)) : 1 ≤ n := by
  match bytes with
  | [] => simp [deserialize_instruction] at h
  | opcode :: rest =>
    unfold deserialize_instruction at h
    split at h <;>
      try (repeat' split at h) <;> simp_all <;> try omega
    all_goals exact deserialize_memwrite_arm_pos (by assumption)

/-- `deserialize_instructions` of `src/assembler.rs`: decode instructions
back-to-back until the buffer is exhausted. -/
def deserialize_instructions (bytecode : List Nat) :
    Except String (List Instruction) :=
  if hb : bytecode = [] then .ok []
  else
    match h : deserialize_instruction bytecode with
    | .error e => .error e
    | .ok (ins, consumed) =>
      match deserialize_instructions (bytecode.drop consumed) with
      | .error e => .error e
      | .ok rest => .ok (ins :: rest)
termination_by bytecode.length
decreasing_by
  have h1 : 1 ≤ consumed := deserialize_instruction_consumed_pos h
  have h2 : bytecode.length ≠ 0 := by
    intro h0
    exact hb (List.length_eq_zero.mp h0)
  simp [List.length_drop]
  omega

/-! ## The assembler front end (`src/spliter.rs`) -/

/-- Rust `str::lines` worker: split on `'\n'`, keeping empty segments. -/
def linesAux : List Char → List Char → List (List Char)
  | [], acc => [acc.reverse]
  | c :: rest, acc =>
    if c = '\n' then acc.reverse :: linesAux rest []
    else linesAux rest (c :: acc)

/-- Rust `str::lines`: split on `'\n'`, discard a final empty segment
(a trailing newline ends the last line rather than starting a new one),
and strip one trailing `'\r'` from each line. -/
def rustLines (s : String) : List (List Char) :=
  if s.data = [] then []
  else
    let parts := linesAux s.data []
    let parts := if parts.getLast? = some [] then parts.dropLast else parts
    parts.map (fun l => if l.getLast? = some '\r' then l.dropLast else l)

/-- Rust `str::trim` (ASCII whitespace). -/
def trimChars (cs : List Char) : List Char :=
  ((cs.dropWhile isWsChar).reverse.dropWhile isWsChar).reverse

/-- `extract_code_portion` of `src/spliter.rs`: trim, cut everything
from the first `;`, and trim again when a comment was cut. -/
def extract_code_portion (line : List Char) : List Char :=
  let trimmed := trimChars line
  if trimmed.contains ';' then trimChars (trimmed.takeWhile (· ≠ ';'))
  else trimmed

/-- `is_comment_line` of `src/spliter.rs`. -/
def is_comment_line (line : List Char) : Bool :=
  match line with
  | [] => true
  | c :: _ => c = ';'

/-- `is_label_definition` of `src/spliter.rs`: the line ends with `:`. -/
def is_label_definition (line : List Char) : Bool :=
  line.getLast? = some ':'

/-- `extract_label_name` of `src/spliter.rs`: drop the trailing `:` (when
present) and trim. -/
def extract_label_name (line : List Char) : String :=
  let stripped := if line.getLast? = some ':' then line.dropLast else line
  String.mk (trimChars stripped)

/-- Rust `str::split_whitespace` worker (accumulates the current word in
reverse). -/
def splitWsAux : List Char → List Char → List (List Char)
  | [], acc => if acc = [] then [] else [acc.reverse]
  | c :: rest, acc =>
    if isWsChar c then
      if acc = [] then splitWsAux rest []
      else acc.reverse :: splitWsAux rest []
    else splitWsAux rest (c :: acc)

/-- Rust `str::split_whitespace`. -/
def splitWs (cs : List Char) : List (List Char) :=
  splitWsAux cs []

/-- The `HashMap<String, usize>` label table, as a lookup function. -/
def labelsEmpty : String → Option Nat := fun _ => none

/-- `HashMap::insert` (later insertions win). -/
def labelsInsert (m : String → Option Nat) (k : String) (v : Nat) :
    String → Option Nat :=
  fun k2 => if k2 = k then some v else m k2

/-- `parse_push_instruction` of `src/spliter.rs`. -/
def parse_push_instruction (parts : List (List Char)) : Option Instruction :=
  if parts.length = 2 then (parseI32Chars (parts.getD 1 [])).map .Push
  else none

/-- `parse_jump_instruction` of `src/spliter.rs`. -/
def parse_jump_instruction (parts : List (List Char))
    (constructor : String → Instruction) : Option Instruction :=
  if parts.length = 2 then some (constructor (String.mk (parts.getD 1 [])))
  else none

/-- `parse_arithmetic_immediate` of `src/spliter.rs`. -/
def parse_arithmetic_immediate (parts : List (List Char))
    (constructor : Int → Instruction) : Option Instruction :=
  if parts.length = 2 then (parseI32Chars (parts.getD 1 [])).map constructor
  else none

/-- `parse_memwrite_instruction` of `src/spliter.rs`: an address operand
and a variable-length value list; malformed value tokens are filtered
out. -/
def parse_memwrite_instruction (parts : List (List Char)) :
    Option Instruction :=
  if 2 ≤ parts.length then
    match parseI32Chars (parts.getD 1 []) with
    | some addr =>
      some (.MemWrite addr ((parts.drop 2).filterMap parseI32Chars))
    | none => none
  else none

/-- `parse_memwrites_instruction` of `src/spliter.rs`. -/
def parse_memwrites_instruction (parts : List (List Char)) :
    Option Instruction :=
  if parts.length = 3 then
    match parseI32Chars (parts.getD 1 []), parseI32Chars (parts.getD 2 []) with
    | some addr, some len => some (.MemWriteS addr len)
    | _, _ => none
  else none

/-- `parse_memread_instruction` of `src/spliter.rs`. -/
def parse_memread_instruction (parts : List (List Char)) :
    Option Instruction :=
  if parts.length = 2 then (parseI32Chars (parts.getD 1 [])).map .MemRead
  else none

/-- `parse_print_instruction` of `src/spliter.rs`. -/
def parse_print_instruction (parts : List (List Char)) :
    Option Instruction :=
  if parts.length = 3 then
    match parseI32Chars (parts.getD 1 []), parseI32Chars (parts.getD 2 []) with
    | some addr, some len => some (.Print addr len)
    | _, _ => none
  else none

/-- `parse_instruction_line` of `src/spliter.rs`: case-insensitive
mnemonic dispatch; an unknown mnemonic yields no instruction (diagnostic
only). -/
def parse_instruction_line (line : List Char) : Option Instruction :=
  let parts := splitWs line
  match parts with
  | [] => none
  | p0 :: _ =>
    let up := p0.map Char.toUpper
    if up = "NULL".data then some .Null
    else if up = "PUSH".data then parse_push_instruction parts
    else if up = "POP".data then some .Pop
    else if up = "DUP".data then some .Dup
    else if up = "SWAP".data then some .Swap
    else if up = "RET".data then some .Ret
    else if up = "JIZ".data then parse_jump_instruction parts .Jiz
    else if up = "JNZ".data then parse_jump_instruction parts .Jnz
    else if up = "ADD".data then some .Add
    else if up = "ADDS".data then parse_arithmetic_immediate parts .AddS
    else if up = "SUB".data then some .Sub
    else if up = "SUBS".data then parse_arithmetic_immediate parts .SubS
    else if up = "MULT".data then some .Mult
    else if up = "MULTS".data then parse_arithmetic_immediate parts .MultS
    else if up = "DIV".data then some .Div
    else if up = "DIVS".data then parse_arithmetic_immediate parts .DivS
    else if up = "MEMWRITE".data then parse_memwrite_instruction parts
    else if up = "MEMWRITES".data then parse_memwrites_instruction parts
    else if up = "MEMREAD".data then parse_memread_instruction parts
    else if up = "PRINT".data then parse_print_instruction parts
    else none

/-- `collect_labels` of `src/spliter.rs` (first pass), with the label
table and instruction counter threaded explicitly. -/
def collectGo : List (List Char) → (String → Option Nat) → Nat →
    (String → Option Nat)
  | [], labels, _ => labels
  | line :: rest, labels, idx =>
    let clean := extract_code_portion line
    if clean = [] ∨ is_comment_line clean then collectGo rest labels idx
    else if is_label_definition clean then
      collectGo rest (labelsInsert labels (extract_label_name clean) idx) idx
    else collectGo rest labels (idx + 1)

/-- `collect_labels` of `src/spliter.rs`. -/
def collect_labels (lines : List (List Char)) : String → Option Nat :=
  collectGo lines labelsEmpty 0

/-- `parse_instructions` of `src/spliter.rs` (second pass): skip blank,
comment and label lines, parse the rest, dropping malformed lines. -/
def parse_instructions (lines : List (List Char)) : List Instruction :=
  lines.filterMap fun line =>
    let clean := extract_code_portion line
    if clean = [] ∨ is_comment_line clean ∨ is_label_definition clean then
      none
    else parse_instruction_line clean

/-- The per-target resolution step of `resolve_label_references`: a
target found in the label table becomes the decimal string of its
address; any other target (already numeric, or unknown — a diagnostic)
is left unchanged. -/
def resolveTarget (t : String) (labels : String → Option Nat) : String :=
  match labels t with
  | some address => natToDecimal address
  | none => t

/-- `resolve_label_references` of `src/spliter.rs` (third pass). -/
def resolve_label_references (instructions : List Instruction)
    (labels : String → Option Nat) : List Instruction :=
  instructions.map fun ins =>
    match ins with
    | .Jiz t => .Jiz (resolveTarget t labels)
    | .Jnz t => .Jnz (resolveTarget t labels)
    | other => other

/-- `split_instructions` of `src/spliter.rs`: the three passes. -/
def split_instructions (source : String) : List Instruction :=
  let lines := rustLines source
  let labels := collect_labels lines
  let result := parse_instructions lines
  resolve_label_references result labels

example :
    split_instructions "main:\nPUSH 10\nSUBS 1\nJNZ main\nRET" =
      [.Push 10, .SubS 1, .Jnz "0", .Ret] := by decide

example :
    split_instructions "PUSH 42\nADD\nRET" = [.Push 42, .Add, .Ret] := by
  decide

example :
    split_instructions " ; comment\nMemWrite 0 72 101\n Print 0 2 ; x\nRET" =
      [.MemWrite 0 [72, 101], .Print 0 2, .Ret] := by decide

/-! ## Shared stack lemmas -/

theorem vecPop_concat (s : List Int) (a : Int) :
    vecPop (s ++ [a]) = some (a, s) := by
  simp [vecPop]

theorem vecPop_two (s : List Int) (a b : Int) :
    vecPop (s ++ [b, a]) = some (a, s ++ [b]) := by
  have h : s ++ [b, a] = (s ++ [b]) ++ [a] := by simp
  rw [h, vecPop_concat]

theorem execute_add_two (s : List Int) (a b : Int) :
    execute_add (s ++ [b, a]) = s ++ [wrap32 (b + a)] := by
  have hlen : 2 ≤ (s ++ [b, a]).length := by simp
  simp [execute_add, hlen, vecPop_two, vecPop_concat]

theorem execute_sub_two (s : List Int) (a b : Int) :
    execute_sub (s ++ [b, a]) = s ++ [wrap32 (b - a)] := by
  have hlen : 2 ≤ (s ++ [b, a]).length := by simp
  simp [execute_sub, hlen, vecPop_two, vecPop_concat]

theorem execute_mult_two (s : List Int) (a b : Int) :
    execute_mult (s ++ [b, a]) = s ++ [wrap32 (b * a)] := by
  have hlen : 2 ≤ (s ++ [b, a]).length := by simp
  simp [execute_mult, hlen, vecPop_two, vecPop_concat]

/-! ## Claim theorems -/

/-- **C6.** Binary arithmetic operand order: with `a` on top of the stack
and `b` second from top, `Add`/`Sub`/`Mult` pop both and push `b op a`
(the second-from-top is the left operand; `op` is the 32-bit
two's-complement operation of the `i32` type).  In particular
`[Push 10, Push 3, Sub, Ret]` finishes with stack `[7]`. -/
theorem c6_binary_arith_operand_order (s : List Int) (a b : Int) :
    execute_add (s ++ [b, a]) = s ++ [wrap32 (b + a)] ∧
    execute_sub (s ++ [b, a]) = s ++ [wrap32 (b - a)] ∧
    execute_mult (s ++ [b, a]) = s ++ [wrap32 (b * a)] ∧
    resultStack (executeProgram 10 [.Push 10, .Push 3, .Sub, .Ret]) =
      some [7] :=
  ⟨execute_add_two s a b, execute_sub_two s a b, execute_mult_two s a b,
    by decide⟩

/-- **C7.** `Div` with a zero divisor on top of the stack pops both
operands and pushes nothing: the stack shrinks by exactly two, the memory
and output are untouched, and execution continues with the next
instruction. -/
theorem c7_div_by_zero_pops_two (prog : List Instruction) (i : Nat)
    (s mem : List Int) (b : Int) (out : List Nat)
    (hi : prog[i]? = some .Div) :
    stepInstr prog (s ++ [b, 0]) mem i out = .cont s mem (i + 1) out := by
  obtain ⟨hlt, hget⟩ := List.getElem?_eq_some.mp hi
  have hdiv : execute_div (s ++ [b, 0]) = some s := by
    have hlen : 2 ≤ (s ++ [b, 0]).length := by simp
    simp [execute_div, hlen, vecPop_two, vecPop_concat]
  unfold stepInstr
  rw [dif_pos hlt, hget, hdiv]

/-- Witness for C7 at a concrete program point. -/
theorem c7_witness :
    stepInstr [Instruction.Div] ([10] ++ [7, 0]) (List.replicate 4 0) 0 [] =
      .cont [10] (List.replicate 4 0) 1 [] :=
  c7_div_by_zero_pops_two [Instruction.Div] 0 [10] (List.replicate 4 0) 7 []
    (by decide)

/-- **C8.** `DivS(0)` leaves the stack entirely unchanged (the top value
is not modified, nothing is popped or pushed) and execution continues
with the next instruction; in particular `[Push 4, DivS 0, Ret]` yields
final stack `[4]`. -/
theorem c8_divs_zero_noop (prog : List Instruction) (i : Nat)
    (stack mem : List Int) (out : List Nat)
    (hi : prog[i]? = some (.DivS 0)) :
    stepInstr prog stack mem i out = .cont stack mem (i + 1) out ∧
    resultStack (executeProgram 10 [.Push 4, .DivS 0, .Ret]) = some [4] := by
  obtain ⟨hlt, hget⟩ := List.getElem?_eq_some.mp hi
  have hdivs : execute_divs stack 0 = some stack := by
    cases h : vecPop stack <;> simp [execute_divs, h]
  constructor
  · unfold stepInstr
    rw [dif_pos hlt, hget]
    simp only [hdivs]
  · decide

/-- Witness for C8 at a concrete program point. -/
theorem c8_witness :
    stepInstr [Instruction.DivS 0] [4] (List.replicate 4 0) 0 [] =
      .cont [4] (List.replicate 4 0) 1 [] :=
  (c8_divs_zero_noop [Instruction.DivS 0] 0 [4] (List.replicate 4 0) []
    (by decide)).1

/-- **C10.** Conditional jumps are non-destructive: executing a `Jiz` or
`Jnz` instruction leaves the operand stack, the memory and the output
exactly as they were — only the instruction pointer moves, whether or not
the jump is taken. -/
theorem c10_cond_jumps_frame (prog : List Instruction) (stack mem : List Int)
    (i : Nat) (out : List Nat) (t : String)
    (hi : prog[i]? = some (.Jiz t) ∨ prog[i]? = some (.Jnz t)) :
    ∃ i2, stepInstr prog stack mem i out = .cont stack mem i2 out := by
  rcases hi with hi | hi
  · obtain ⟨hlt, hget⟩ := List.getElem?_eq_some.mp hi
    refine ⟨execute_jiz stack prog i t, ?_⟩
    unfold stepInstr
    rw [dif_pos hlt, hget]
  · obtain ⟨hlt, hget⟩ := List.getElem?_eq_some.mp hi
    refine ⟨execute_jnz stack prog i t, ?_⟩
    unfold stepInstr
    rw [dif_pos hlt, hget]

/-- Witness for C10 at a concrete program point. -/
theorem c10_witness :
    ∃ i2, stepInstr [Instruction.Jiz "0"] [1] (List.replicate 4 0) 0 [] =
      .cont [1] (List.replicate 4 0) i2 [] :=
  c10_cond_jumps_frame [Instruction.Jiz "0"] [1] (List.replicate 4 0) 0 []
    "0" (Or.inl (by decide))

/-- **C2 counterexample.** The claim says a satisfied `Jiz`/`Jnz` whose
target is invalid halts execution at that instruction, returning the
stack at that point (`[1]`) as final.  Running
`[Push 1, Jnz "99", Push 5, Ret]` — the `Jnz` condition holds (top `1` is
non-zero) and the target `99` is out of range for the 4-instruction
program — instead continues and executes the following `Push 5`,
finishing with stack `[1, 5]`. -/
theorem c2_counterexample :
    resultStack (executeProgram 10 [.Push 1, .Jnz "99", .Push 5, .Ret]) =
      some [1, 5] := by decide

/-- **C2 (amended).** When a `Jiz` (top of stack exists and equals zero)
or `Jnz` (top exists and is non-zero) condition holds but the
instruction's target does not parse as a non-negative integer less than
the program length, the jump is simply not taken: execution continues
with the next instruction (`i + 1`); nothing halts. -/
theorem c2_invalid_jump_continues (stack : List Int)
    (prog : List Instruction) (i : Nat) (t : String) (v : Int)
    (htop : stack.getLast? = some v)
    (hbad : ∀ a, parseUsizeStr t = some a → prog.length ≤ a) :
    (v = 0 → execute_jiz stack prog i t = i + 1) ∧
    (v ≠ 0 → execute_jnz stack prog i t = i + 1) := by
  constructor
  · intro hv
    unfold execute_jiz
    rw [htop, hv]
    dsimp only
    rw [if_pos rfl]
    cases hp : parseUsizeStr t with
    | none => rfl
    | some a =>
      have ha := hbad a hp
      dsimp only
      rw [if_neg (by omega)]
  · intro hv
    unfold execute_jnz
    rw [htop]
    dsimp only
    rw [if_pos hv]
    cases hp : parseUsizeStr t with
    | none => rfl
    | some a =>
      have ha := hbad a hp
      dsimp only
      rw [if_neg (by omega)]

/-- Witness for C2 (amended): a satisfied `Jnz` with the out-of-range
target `"99"` falls through to the next instruction. -/
theorem c2_witness :
    execute_jnz [1] [.Push 1, .Jnz "99", .Push 5, .Ret] 1 "99" = 2 :=
  (c2_invalid_jump_continues [1] [.Push 1, .Jnz "99", .Push 5, .Ret] 1
    "99" 1 (by decide)
    (fun a ha => by
      have h99 : parseUsizeStr "99" = some 99 := by decide
      rw [h99] at ha
      have : a = 99 := by
        injection ha with h2
        omega
      simp [this])).2 (by decide)

/-- **C3.** The claim (and the spec) says a negative `MemRead` address is
rejected as a local error — no push, state unchanged, execution
continues.  The code only checks `index >= mem.len() as i32`, so a
negative index reaches `mem[index as usize]`; `-1 as usize` is
`2^64 - 1`, far beyond the 2048-cell memory, and the indexing panics,
aborting the whole run: the spec is the intent, the code is missing the
negative-bound check. -/
theorem c3_memread_negative_panics :
    executeProgram 10 [.MemRead (-1), .Ret] = .panicked ∧
    execute_memread [] (List.replicate 2048 0) (-1) = none := by
  constructor <;> decide

/-! ## Print and MemWriteS (claims C4 and C9) -/

theorem usizeOfI32_of_nonneg {v : Int} (h0 : 0 ≤ v)
    (h1 : v < 18446744073709551616) : usizeOfI32 v = v.toNat := by
  unfold usizeOfI32
  rw [Int.emod_eq_of_lt h0 h1]

theorem take_drop_seg (mem : List Int) (s n : Nat) (h : s + n ≤ mem.length) :
    (mem.take (s + n)).drop s =
      (List.range n).map (fun j => mem.getD (s + j) 0) := by
  apply List.ext_getElem
  · simp
    omega
  · intro i h1 h2
    simp only [List.length_drop, List.length_take] at h1
    have hi : i < n := by omega
    have hsi : s + i < mem.length := by omega
    simp [List.getElem_drop, List.getElem_take, List.getElem_range,
      List.getD_eq_getElem?_getD, List.getElem?_eq_getElem hsi]

/-- **C4.** In-bounds `Print(addr, len)` appends to the output buffer,
for each memory cell of `[addr, addr+len)` in order, the UTF-8 bytes of
the character whose code is that 32-bit cell's low byte; and the program
`[MemWrite(0,[72,101,108,108,111]), Print(0,5), Ret]` produces exactly
the bytes of `"Hello"` and leaves `memory[0..5]` equal to those values. -/
theorem c4_print_output :
    (∀ (out : List Nat) (mem : List Int) (addr len : Int),
      0 ≤ addr → 0 ≤ len → addr < 2147483648 → len < 2147483648 →
      mem.length = 2048 → addr.toNat + len.toNat ≤ 2048 →
      execute_print out mem addr len =
        out ++ (List.range len.toNat).flatMap
          (fun j => utf8EncodeChar (u8OfI32 (mem.getD (addr.toNat + j) 0)))) ∧
    resultOut (executeProgram 10
      [.MemWrite 0 [72, 101, 108, 108, 111], .Print 0 5, .Ret]) =
      some [72, 101, 108, 108, 111] ∧
    resultMemTake 5 (executeProgram 10
      [.MemWrite 0 [72, 101, 108, 108, 111], .Print 0 5, .Ret]) =
      some [72, 101, 108, 108, 111] := by
  refine ⟨?_, by decide, by decide⟩
  intro out mem addr len h0a h0l hba hbl hml hsum
  unfold execute_print
  rw [usizeOfI32_of_nonneg h0a (by omega), usizeOfI32_of_nonneg h0l (by omega)]
  dsimp only
  rw [Nat.mod_eq_of_lt (by omega)]
  rw [if_pos (by simp [hml]; omega)]
  rw [take_drop_seg mem addr.toNat len.toNat (by omega)]
  rw [List.flatMap_map]

/-- Witness for C4's universally quantified part at a concrete state. -/
theorem c4_witness :
    execute_print [] ([65, 66] ++ List.replicate 2046 0) 0 2 =
      [] ++ (List.range (2 : Int).toNat).flatMap
        (fun j => utf8EncodeChar
          (u8OfI32 (([65, 66] ++ List.replicate 2046 (0 : Int)).getD
            ((0 : Int).toNat + j) 0))) :=
  c4_print_output.1 [] ([65, 66] ++ List.replicate 2046 0) 0 2
    (by decide) (by decide) (by decide) (by decide)
    (by simp) (by decide)

theorem memStoreLoop_eq (vals : List Int) :
    ∀ (mem : List Int) (mi off : Nat),
      mi + off + vals.length ≤ mem.length →
      mem.length < 18446744073709551616 →
      memStoreLoop mem mi off vals =
        some (mem.take (mi + off) ++ vals ++
          mem.drop (mi + off + vals.length)) := by
  induction vals with
  | nil =>
    intro mem mi off h1 h2
    simp [memStoreLoop]
  | cons v vs ih =>
    intro mem mi off h1 h2
    have hplt : mi + off < mem.length := by simp at h1 ⊢; omega
    unfold memStoreLoop
    dsimp only
    rw [Nat.mod_eq_of_lt (by omega), vecLen_eq, if_pos hplt]
    rw [ih (mem.set (mi + off) v) mi (off + 1)
      (by simp; simp at h1; omega) (by simp; omega)]
    have hset := List.set_eq_take_cons_drop v hplt
    have htake : (mem.set (mi + off) v).take (mi + off + 1) =
        mem.take (mi + off) ++ [v] := by
      rw [hset, List.take_append_eq_append_take]
      have hlt : (mem.take (mi + off)).length = mi + off := by
        simp
        omega
      rw [hlt]
      rw [List.take_of_length_le (by omega)]
      simp
    have hdrop : (mem.set (mi + off) v).drop (mi + off + 1 + vs.length) =
        mem.drop (mi + off + 1 + vs.length) := by
      rw [List.drop_set]
      rw [if_pos (by omega)]
    have harith : mi + (off + 1) = mi + off + 1 := by omega
    rw [harith, htake, hdrop]
    have harith2 : mi + off + 1 + vs.length = mi + off + (v :: vs).length := by
      simp
      omega
    rw [harith2]
    simp

/-- **C9.** `MemWriteS(addr, len)` with `addr + len` within the 2048-cell
memory and at least `len` values on the stack pops `len` values and
writes them to `memory[addr..addr+len]` in their original push order;
when the up-front bounds check fails the whole operation is skipped and
the stack and memory are unchanged; and
`[Push 5, Dup, Dup, Dup, MemWriteS(0,4), Ret]` leaves `memory[0..4]` all
`5` and an empty final stack. -/
theorem c9_memwrites_semantics :
    (∀ (s vals mem : List Int) (addr len : Int),
      0 ≤ addr → 0 ≤ len → addr < 2147483648 → len < 2147483648 →
      mem.length = 2048 → addr.toNat + len.toNat ≤ 2048 →
      vals.length = len.toNat →
      execute_memwrites (s ++ vals) mem addr len =
        some (s, mem.take addr.toNat ++ vals ++
          mem.drop (addr.toNat + vals.length))) ∧
    (∀ (stack mem : List Int) (addr len : Int),
      0 ≤ addr → 0 ≤ len → addr < 2147483648 → len < 2147483648 →
      mem.length = 2048 → 2048 < addr.toNat + len.toNat →
      execute_memwrites stack mem addr len = some (stack, mem)) ∧
    (resultStack (executeProgram 10
      [.Push 5, .Dup, .Dup, .Dup, .MemWriteS 0 4, .Ret]) = some [] ∧
     resultMemTake 4 (executeProgram 10
      [.Push 5, .Dup, .Dup, .Dup, .MemWriteS 0 4, .Ret]) =
        some [5, 5, 5, 5]) := by
  refine ⟨?_, ?_, by decide, by decide⟩
  · intro s vals mem addr len h0a h0l hba hbl hml hsum hvl
    unfold execute_memwrites
    rw [usizeOfI32_of_nonneg h0a (by omega),
      usizeOfI32_of_nonneg h0l (by omega)]
    dsimp only
    rw [Nat.mod_eq_of_lt (by omega), vecLen_eq,
      if_pos (by omega)]
    have hk : min len.toNat (s ++ vals).length = len.toNat := by
      simp [List.length_append]
      omega
    rw [hk]
    have hd : (s ++ vals).length - len.toNat = s.length := by
      simp [List.length_append]
      omega
    rw [hd, List.drop_left, List.take_left]
    rw [memStoreLoop_eq vals mem addr.toNat 0 (by omega) (by omega)]
    simp
  · intro stack mem addr len h0a h0l hba hbl hml hsum
    unfold execute_memwrites
    rw [usizeOfI32_of_nonneg h0a (by omega),
      usizeOfI32_of_nonneg h0l (by omega)]
    dsimp only
    rw [Nat.mod_eq_of_lt (by omega), vecLen_eq, if_neg (by omega)]

/-- Witness for C9's universally quantified part at a concrete state. -/
theorem c9_witness :
    execute_memwrites ([] ++ [1, 2]) (List.replicate 2048 0) 0 2 =
      some (([] : List Int),
        (List.replicate 2048 (0 : Int)).take (0 : Int).toNat ++ [1, 2] ++
          (List.replicate 2048 (0 : Int)).drop ((0 : Int).toNat + 2)) :=
  c9_memwrites_semantics.1 [] [1, 2] (List.replicate 2048 0) 0 2
    (by decide) (by decide) (by decide) (by decide)
    (by simp) (by decide) (by decide)
/-- An instruction line: cleaned text that is non-empty, not a comment
and not a label definition — the lines counted by the first pass of the
assembler. -/
def isInstrLine (l : List Char) : Bool :=
  let c := extract_code_portion l
  if c = [] ∨ is_comment_line c then false
  else if is_label_definition c then false
  else true

/-- The count of instruction lines in a line list. -/
def instrLineCount (lines : List (List Char)) : Nat :=
  (lines.filter isInstrLine).length

/-- The line defines the label `name`. -/
def definesLabel (name : String) (l : List Char) : Bool :=
  let c := extract_code_portion l
  if c = [] ∨ is_comment_line c then false
  else if is_label_definition c then decide (extract_label_name c = name)
  else false

theorem collectGo_no_def (name : String) :
    ∀ (lines : List (List Char)) (m : String → Option Nat) (idx : Nat),
      (∀ l ∈ lines, definesLabel name l = false) →
      collectGo lines m idx name = m name := by
  intro lines
  induction lines with
  | nil => intro m idx _; rfl
  | cons l rest ih =>
    intro m idx hno
    have hl := hno l (by simp)
    have hrest : ∀ l2 ∈ rest, definesLabel name l2 = false := by
      intro l2 h2
      exact hno l2 (by simp [h2])
    unfold collectGo
    dsimp only
    by_cases h1 : extract_code_portion l = [] ∨
        is_comment_line (extract_code_portion l)
    · rw [if_pos h1]
      exact ih m idx hrest
    · rw [if_neg h1]
      by_cases h2 : is_label_definition (extract_code_portion l) = true
      · rw [if_pos h2]
        rw [ih _ idx hrest]
        unfold definesLabel at hl
        rw [if_neg h1, if_pos h2] at hl
        simp at hl
        unfold labelsInsert
        rw [if_neg (fun hEq => hl hEq.symm)]
      · rw [if_neg h2]
        exact ih m (idx + 1) hrest

theorem collectGo_label (name : String) (L : List Char)
    (hc : ¬(extract_code_portion L = [] ∨
      is_comment_line (extract_code_portion L)))
    (hd : is_label_definition (extract_code_portion L) = true)
    (hn : extract_label_name (extract_code_portion L) = name) :
    ∀ (pre post : List (List Char)) (m : String → Option Nat) (idx : Nat),
      (∀ l ∈ post, definesLabel name l = false) →
      collectGo (pre ++ L :: post) m idx name =
        some (idx + instrLineCount pre) := by
  intro pre
  induction pre with
  | nil =>
    intro post m idx hpost
    simp only [List.nil_append]
    unfold collectGo
    dsimp only
    rw [if_neg hc, if_pos hd]
    rw [collectGo_no_def name post _ idx hpost]
    unfold labelsInsert
    rw [hn, if_pos rfl]
    simp [instrLineCount]
  | cons l pre' ih =>
    intro post m idx hpost
    simp only [List.cons_append]
    unfold collectGo
    dsimp only
    by_cases h1 : extract_code_portion l = [] ∨
        is_comment_line (extract_code_portion l)
    · rw [if_pos h1]
      rw [ih post m idx hpost]
      have : instrLineCount (l :: pre') = instrLineCount pre' := by
        simp [instrLineCount, List.filter, isInstrLine, h1]
      rw [this]
    · rw [if_neg h1]
      by_cases h2 : is_label_definition (extract_code_portion l) = true
      · rw [if_pos h2]
        rw [ih post _ idx hpost]
        have : instrLineCount (l :: pre') = instrLineCount pre' := by
          simp [instrLineCount, List.filter, isInstrLine, h1, h2]
        rw [this]
      · rw [if_neg h2]
        rw [ih post m (idx + 1) hpost]
        have : instrLineCount (l :: pre') = instrLineCount pre' + 1 := by
          simp [instrLineCount, List.filter, isInstrLine, h1, h2]
        rw [this]
        congr 1
        omega

theorem parse_instructions_skip_label (L : List Char)
    (hd : is_label_definition (extract_code_portion L) = true)
    (pre post : List (List Char)) :
    parse_instructions (pre ++ L :: post) = parse_instructions (pre ++ post) := by
  unfold parse_instructions
  rw [List.filterMap_append, List.filterMap_append]
  congr 1
  rw [List.filterMap_cons]
  dsimp only
  rw [if_pos (by simp [hd])]

/-- **C5.** Assembling `"main:\nPUSH 10\nSUBS 1\nJNZ main\nRET"` yields
`[Push 10, SubS 1, Jnz "0", Ret]`; and in general a label definition line
binds its label to the count of instruction lines seen before it (when no
later line redefines the same label, since later bindings overwrite) and
occupies no instruction address itself (the instruction list is the same
with or without the label line). -/
theorem c5_label_resolution :
    (split_instructions "main:\nPUSH 10\nSUBS 1\nJNZ main\nRET" =
      [.Push 10, .SubS 1, .Jnz "0", .Ret]) ∧
    (∀ (pre post : List (List Char)) (L : List Char) (name : String),
      ¬(extract_code_portion L = [] ∨
        is_comment_line (extract_code_portion L)) →
      is_label_definition (extract_code_portion L) = true →
      extract_label_name (extract_code_portion L) = name →
      (∀ l ∈ post, definesLabel name l = false) →
      collect_labels (pre ++ L :: post) name = some (instrLineCount pre) ∧
      parse_instructions (pre ++ L :: post) =
        parse_instructions (pre ++ post)) := by
  refine ⟨by decide, ?_⟩
  intro pre post L name hc hd hn hpost
  constructor
  · unfold collect_labels
    rw [collectGo_label name L hc hd hn pre post labelsEmpty 0 hpost]
    simp
  · exact parse_instructions_skip_label L hd pre post

/-- Witness for C5's universally quantified part at a concrete source. -/
theorem c5_witness :
    collect_labels (["PUSH 1".data] ++ "main:".data :: ["RET".data])
      "main" = some (instrLineCount ["PUSH 1".data]) ∧
    parse_instructions (["PUSH 1".data] ++ "main:".data :: ["RET".data]) =
      parse_instructions (["PUSH 1".data] ++ ["RET".data]) :=
  c5_label_resolution.2 ["PUSH 1".data] ["RET".data] "main:".data "main"
    (by decide) (by decide) (by decide) (by decide)
/-! ## Codec round trip (claim C1) -/

/-- A resolved jump target: a non-empty string of decimal digits. -/
def decimalTarget (t : String) : Bool :=
  !t.data.isEmpty && t.data.all isDigitChar

/-- Well-formed instruction for the round-trip claim: every `i32` operand
in range, jump targets decimal strings, and `MemWrite` value lists
non-empty (see the counterexample), of length fitting the `u32` count
field, with in-range values. -/
def wfInstr : Instruction → Bool
  | .Push v => i32Range v
  | .Jiz t => decimalTarget t
  | .Jnz t => decimalTarget t
  | .AddS v => i32Range v
  | .SubS v => i32Range v
  | .MultS v => i32Range v
  | .DivS v => i32Range v
  | .MemWrite a vs =>
    i32Range a && !vs.isEmpty && decide (vs.length < 4294967296) &&
      vs.all i32Range
  | .MemWriteS a l => i32Range a && i32Range l
  | .MemRead a => i32Range a
  | .Print a l => i32Range a && i32Range l
  | _ => true

theorem i32ToLe_length (v : Int) : (i32ToLe v).length = 4 := by
  simp [i32ToLe, le4]

theorem getD_drop (l : List Nat) (i k d : Nat) :
    (l.drop i).getD k d = l.getD (i + k) d := by
  simp [List.getD_eq_getElem?_getD, List.getElem?_drop]

theorem readI32_drop (bytes : List Nat) (i : Nat) :
    readI32 bytes i = readI32 (bytes.drop i) 0 := by
  unfold readI32
  simp [getD_drop]

theorem readU32_drop (bytes : List Nat) (i : Nat) :
    readU32 bytes i = readU32 (bytes.drop i) 0 := by
  unfold readU32
  simp [getD_drop]

theorem i32_le_round (v : Int) (hv : i32Range v = true) :
    i32FromLe ((v % 4294967296).toNat % 256)
      ((v % 4294967296).toNat / 256 % 256)
      ((v % 4294967296).toNat / 65536 % 256)
      ((v % 4294967296).toNat / 16777216 % 256) = v := by
  unfold i32Range at hv
  simp at hv
  unfold i32FromLe
  dsimp only
  split <;> omega

theorem readI32_encFront (v : Int) (rest : List Nat)
    (hv : i32Range v = true) : readI32 (i32ToLe v ++ rest) 0 = v := by
  unfold readI32 i32ToLe le4
  simp only [List.cons_append, List.getD_cons_zero, List.getD_cons_succ]
  exact i32_le_round v hv

theorem readU32_encFront (u : Nat) (rest : List Nat) (hu : u < 4294967296) :
    readU32 (le4 u ++ rest) 0 = u := by
  unfold readU32 le4
  simp only [List.cons_append, List.getD_cons_zero, List.getD_cons_succ]
  omega

theorem takeUntilZero_append (l rest : List Nat) (h : ∀ b ∈ l, b ≠ 0) :
    takeUntilZero (l ++ 0 :: rest) = some l := by
  induction l with
  | nil => simp [takeUntilZero]
  | cons b l' ih =>
    have hb : b ≠ 0 := h b (by simp)
    have hl' : ∀ b2 ∈ l', b2 ≠ 0 := fun b2 hb2 => h b2 (by simp [hb2])
    simp [takeUntilZero, hb, ih hl']

theorem utf8Decode_nil : utf8Decode [] = some [] := by
  unfold utf8Decode
  rfl

theorem utf8DecodeStep_ascii (b : Nat) (rest : List Nat) (hb : b ≤ 127) :
    utf8DecodeStep b rest = some (b, rest) := by
  unfold utf8DecodeStep
  rw [if_pos hb]

theorem utf8Decode_ascii (cs : List Char) (h : ∀ c ∈ cs, c.toNat ≤ 127) :
    utf8Decode (cs.flatMap (fun c => utf8EncodeChar c.toNat)) = some cs := by
  induction cs with
  | nil =>
    simp only [List.flatMap_nil]
    exact utf8Decode_nil
  | cons c cs' ih =>
    have hc : c.toNat ≤ 127 := h c (by simp)
    have hcs' : ∀ c2 ∈ cs', c2.toNat ≤ 127 := fun c2 h2 => h c2 (by simp [h2])
    have henc : utf8EncodeChar c.toNat = [c.toNat] := by
      unfold utf8EncodeChar
      rw [if_pos (by omega)]
    simp only [List.flatMap_cons, henc, List.cons_append, List.nil_append]
    rw [utf8Decode_cons (utf8DecodeStep_ascii c.toNat _ hc)]
    rw [ih hcs']
    simp [Char.ofNat_toNat]

theorem string_mk_data (t : String) : String.mk t.data = t := rfl

theorem utf8Encode_digit_bytes (t : String) (h : decimalTarget t = true) :
    ∀ b ∈ utf8Encode t, 48 ≤ b ∧ b ≤ 57 := by
  unfold decimalTarget at h
  simp at h
  intro b hb
  unfold utf8Encode at hb
  simp only [List.mem_flatMap] at hb
  obtain ⟨c, hc, hbc⟩ := hb
  have hd := h.2 c hc
  unfold isDigitChar at hd
  simp at hd
  have henc : utf8EncodeChar c.toNat = [c.toNat] := by
    unfold utf8EncodeChar
    rw [if_pos (by omega)]
  rw [henc] at hbc
  simp at hbc
  omega

theorem deserialize_serialize_string (t : String)
    (h : decimalTarget t = true) (rest : List Nat) :
    deserialize_string (serialize_string t ++ rest) =
      .ok (t, (utf8Encode t).length + 1) := by
  unfold deserialize_string serialize_string
  have harr : (utf8Encode t ++ [0]) ++ rest = utf8Encode t ++ 0 :: rest := by
    simp
  rw [harr, takeUntilZero_append _ _
    (fun b hb => by have := utf8Encode_digit_bytes t h b hb; omega)]
  dsimp only
  have hdec : utf8Decode (utf8Encode t) = some t.data := by
    unfold utf8Encode
    apply utf8Decode_ascii
    intro c hc
    unfold decimalTarget at h
    simp at h
    have := h.2 c hc
    unfold isDigitChar at this
    simp at this
    omega
  rw [hdec]
theorem flatMap_i32ToLe_length (vals : List Int) :
    (vals.flatMap i32ToLe).length = 4 * vals.length := by
  induction vals with
  | nil => simp
  | cons v vs ih =>
    simp [ih, i32ToLe_length]
    omega

theorem serialize_instruction_ne_nil (ins : Instruction) :
    serialize_instruction ins ≠ [] := by
  cases ins <;> simp [serialize_instruction]

theorem readVals_encode (vals : List Int) :
    ∀ (pre rest : List Nat), (∀ v ∈ vals, i32Range v = true) →
      readVals (pre ++ (vals.flatMap i32ToLe ++ rest)) pre.length
          vals.length =
        .ok (vals, pre.length + 4 * vals.length) := by
  induction vals with
  | nil =>
    intro pre rest _
    simp [readVals]
  | cons v vs ih =>
    intro pre rest hwf
    have hv : i32Range v = true := hwf v (by simp)
    have hvs : ∀ v2 ∈ vs, i32Range v2 = true :=
      fun v2 h2 => hwf v2 (by simp [h2])
    have hlen4 : (i32ToLe v).length = 4 := i32ToLe_length v
    have hbytes : pre ++ ((v :: vs).flatMap i32ToLe ++ rest) =
        (pre ++ i32ToLe v) ++ (vs.flatMap i32ToLe ++ rest) := by
      simp [List.flatMap_cons]
    show readVals _ _ (vs.length + 1) = _
    unfold readVals
    rw [hbytes]
    rw [if_neg (by simp [flatMap_i32ToLe_length, hlen4])]
    have hpre' : ((pre ++ i32ToLe v) : List Nat).length = pre.length + 4 := by
      simp [hlen4]
    rw [show pre.length + 4 = ((pre ++ i32ToLe v) : List Nat).length from
      hpre'.symm]
    rw [ih (pre ++ i32ToLe v) rest hvs]
    have hread : readI32 ((pre ++ i32ToLe v) ++ (vs.flatMap i32ToLe ++ rest))
        pre.length = v := by
      rw [readI32_drop]
      have : ((pre ++ i32ToLe v) ++ (vs.flatMap i32ToLe ++ rest)).drop
          pre.length = i32ToLe v ++ (vs.flatMap i32ToLe ++ rest) := by
        rw [List.append_assoc]
        exact List.drop_left pre _
      rw [this]
      exact readI32_encFront v _ hv
    rw [hread]
    simp <;> omega
theorem readI32_imm (op : Nat) (v : Int) (rest : List Nat)
    (hv : i32Range v = true) :
    readI32 (op :: (i32ToLe v ++ rest)) 1 = v := by
  rw [readI32_drop]
  simp only [List.drop_succ_cons, List.drop_zero]
  exact readI32_encFront v rest hv

theorem readI32_imm2 (op : Nat) (a b : Int) (rest : List Nat)
    (hb : i32Range b = true) :
    readI32 (op :: (i32ToLe a ++ (i32ToLe b ++ rest))) 5 = b := by
  rw [readI32_drop]
  have hsplit : op :: (i32ToLe a ++ (i32ToLe b ++ rest)) =
      (op :: i32ToLe a) ++ (i32ToLe b ++ rest) := by simp
  have hlen : ((op :: i32ToLe a) : List Nat).length = 5 := by
    simp [i32ToLe_length]
  rw [hsplit, show (5 : Nat) = ((op :: i32ToLe a) : List Nat).length from
    hlen.symm, List.drop_left]
  exact readI32_encFront b rest hb

theorem decode_encode_memwrite (addr : Int) (vals : List Int)
    (rest : List Nat) (ha : i32Range addr = true) (hne : vals ≠ [])
    (hlt : vals.length < 4294967296)
    (hall : ∀ v ∈ vals, i32Range v = true) :
    deserialize_instruction
        (serialize_instruction (.MemWrite addr vals) ++ rest) =
      .ok (.MemWrite addr vals,
        (serialize_instruction (.MemWrite addr vals)).length) := by
  have hmod : vals.length % 4294967296 = vals.length := Nat.mod_eq_of_lt hlt
  have hlen1 : vals.length ≥ 1 := by
    cases vals with
    | nil => exact absurd rfl hne
    | cons v vs => simp
  have hflat : (vals.flatMap i32ToLe).length = 4 * vals.length :=
    flatMap_i32ToLe_length vals
  have hser : serialize_instruction (.MemWrite addr vals) ++ rest =
      0x10 :: (i32ToLe addr ++ (le4 vals.length ++
        (vals.flatMap i32ToLe ++ rest))) := by
    simp [serialize_instruction, hmod]
  rw [hser]
  unfold deserialize_instruction
  dsimp only
  unfold deserialize_memwrite_arm
  have hblen : (0x10 :: (i32ToLe addr ++ (le4 vals.length ++
      (vals.flatMap i32ToLe ++ rest))) : List Nat).length =
      9 + 4 * vals.length + rest.length := by
    simp [i32ToLe_length, le4, hflat]
    omega
  rw [if_neg (by rw [hblen]; omega)]
  dsimp only
  rw [readI32_imm 0x10 addr _ ha]
  have hu32 : readU32 (0x10 :: (i32ToLe addr ++ (le4 vals.length ++
      (vals.flatMap i32ToLe ++ rest)))) 5 = vals.length := by
    rw [readU32_drop]
    have hsplit : (0x10 :: (i32ToLe addr ++ (le4 vals.length ++
        (vals.flatMap i32ToLe ++ rest))) : List Nat) =
        (0x10 :: i32ToLe addr) ++ (le4 vals.length ++
          (vals.flatMap i32ToLe ++ rest)) := by simp
    have hlen5 : ((0x10 :: i32ToLe addr) : List Nat).length = 5 := by
      simp [i32ToLe_length]
    rw [hsplit, show (5 : Nat) = ((0x10 :: i32ToLe addr) : List Nat).length
      from hlen5.symm, List.drop_left]
    exact readU32_encFront vals.length _ hlt
  rw [hu32]
  have hvals : readVals (0x10 :: (i32ToLe addr ++ (le4 vals.length ++
      (vals.flatMap i32ToLe ++ rest)))) 9 vals.length =
      .ok (vals, 9 + 4 * vals.length) := by
    have hsplit : (0x10 :: (i32ToLe addr ++ (le4 vals.length ++
        (vals.flatMap i32ToLe ++ rest))) : List Nat) =
        (0x10 :: (i32ToLe addr ++ le4 vals.length)) ++
          (vals.flatMap i32ToLe ++ rest) := by simp
    have hlen9 : ((0x10 :: (i32ToLe addr ++ le4 vals.length)) :
        List Nat).length = 9 := by
      simp [i32ToLe_length, le4]
    rw [hsplit, show (9 : Nat) = ((0x10 :: (i32ToLe addr ++
      le4 vals.length)) : List Nat).length from hlen9.symm]
    rw [readVals_encode vals _ rest hall]
  rw [hvals]
  have hfinal : (serialize_instruction (.MemWrite addr vals)).length =
      9 + 4 * vals.length := by
    simp [serialize_instruction, i32ToLe_length, le4, hflat]
    omega
  rw [hfinal]
theorem decode_encode_one (ins : Instruction) (hwf : wfInstr ins = true)
    (rest : List Nat) :
    deserialize_instruction (serialize_instruction ins ++ rest) =
      .ok (ins, (serialize_instruction ins).length) := by
  cases ins with
  | Null => simp [serialize_instruction, deserialize_instruction]
  | Dup => simp [serialize_instruction, deserialize_instruction]
  | Swap => simp [serialize_instruction, deserialize_instruction]
  | Pop => simp [serialize_instruction, deserialize_instruction]
  | Ret => simp [serialize_instruction, deserialize_instruction]
  | Add => simp [serialize_instruction, deserialize_instruction]
  | Sub => simp [serialize_instruction, deserialize_instruction]
  | Mult => simp [serialize_instruction, deserialize_instruction]
  | Div => simp [serialize_instruction, deserialize_instruction]
  | Push v =>
    have hv : i32Range v = true := by simpa [wfInstr] using hwf
    have hser : serialize_instruction (.Push v) ++ rest =
        0x01 :: (i32ToLe v ++ rest) := by simp [serialize_instruction]
    rw [hser]
    unfold deserialize_instruction
    dsimp only
    rw [if_neg (by simp [i32ToLe_length] <;> omega)]
    rw [readI32_imm 0x01 v rest hv]
    simp [serialize_instruction, i32ToLe_length]
  | AddS v =>
    have hv : i32Range v = true := by simpa [wfInstr] using hwf
    have hser : serialize_instruction (.AddS v) ++ rest =
        0x08 :: (i32ToLe v ++ rest) := by simp [serialize_instruction]
    rw [hser]
    unfold deserialize_instruction
    dsimp only
    rw [if_neg (by simp [i32ToLe_length] <;> omega)]
    rw [readI32_imm 0x08 v rest hv]
    simp [serialize_instruction, i32ToLe_length]
  | SubS v =>
    have hv : i32Range v = true := by simpa [wfInstr] using hwf
    have hser : serialize_instruction (.SubS v) ++ rest =
        0x0A :: (i32ToLe v ++ rest) := by simp [serialize_instruction]
    rw [hser]
    unfold deserialize_instruction
    dsimp only
    rw [if_neg (by simp [i32ToLe_length] <;> omega)]
    rw [readI32_imm 0x0A v rest hv]
    simp [serialize_instruction, i32ToLe_length]
  | MultS v =>
    have hv : i32Range v = true := by simpa [wfInstr] using hwf
    have hser : serialize_instruction (.MultS v) ++ rest =
        0x0C :: (i32ToLe v ++ rest) := by simp [serialize_instruction]
    rw [hser]
    unfold deserialize_instruction
    dsimp only
    rw [if_neg (by simp [i32ToLe_length] <;> omega)]
    rw [readI32_imm 0x0C v rest hv]
    simp [serialize_instruction, i32ToLe_length]
  | DivS v =>
    have hv : i32Range v = true := by simpa [wfInstr] using hwf
    have hser : serialize_instruction (.DivS v) ++ rest =
        0x0E :: (i32ToLe v ++ rest) := by simp [serialize_instruction]
    rw [hser]
    unfold deserialize_instruction
    dsimp only
    rw [if_neg (by simp [i32ToLe_length] <;> omega)]
    rw [readI32_imm 0x0E v rest hv]
    simp [serialize_instruction, i32ToLe_length]
  | MemRead v =>
    have hv : i32Range v = true := by simpa [wfInstr] using hwf
    have hser : serialize_instruction (.MemRead v) ++ rest =
        0x12 :: (i32ToLe v ++ rest) := by simp [serialize_instruction]
    rw [hser]
    unfold deserialize_instruction
    dsimp only
    rw [if_neg (by simp [i32ToLe_length] <;> omega)]
    rw [readI32_imm 0x12 v rest hv]
    simp [serialize_instruction, i32ToLe_length]
  | Jiz t =>
    have hdec : decimalTarget t = true := by simpa [wfInstr] using hwf
    have hser : serialize_instruction (.Jiz t) ++ rest =
        0x06 :: (serialize_string t ++ rest) := by simp [serialize_instruction]
    rw [hser]
    unfold deserialize_instruction
    dsimp only
    simp only [List.drop_succ_cons, List.drop_zero]
    rw [deserialize_serialize_string t hdec rest]
    simp [serialize_instruction, serialize_string] <;> omega
  | Jnz t =>
    have hdec : decimalTarget t = true := by simpa [wfInstr] using hwf
    have hser : serialize_instruction (.Jnz t) ++ rest =
        0x07 :: (serialize_string t ++ rest) := by simp [serialize_instruction]
    rw [hser]
    unfold deserialize_instruction
    dsimp only
    simp only [List.drop_succ_cons, List.drop_zero]
    rw [deserialize_serialize_string t hdec rest]
    simp [serialize_instruction, serialize_string] <;> omega
  | MemWriteS a l =>
    have hh : i32Range a = true ∧ i32Range l = true := by
      simpa [wfInstr] using hwf
    have hser : serialize_instruction (.MemWriteS a l) ++ rest =
        0x11 :: (i32ToLe a ++ (i32ToLe l ++ rest)) := by
      simp [serialize_instruction]
    rw [hser]
    unfold deserialize_instruction
    dsimp only
    rw [if_neg (by simp [i32ToLe_length] <;> omega)]
    rw [readI32_imm 0x11 a _ hh.1, readI32_imm2 0x11 a l rest hh.2]
    simp [serialize_instruction, i32ToLe_length] <;> omega
  | Print a l =>
    have hh : i32Range a = true ∧ i32Range l = true := by
      simpa [wfInstr] using hwf
    have hser : serialize_instruction (.Print a l) ++ rest =
        0x13 :: (i32ToLe a ++ (i32ToLe l ++ rest)) := by
      simp [serialize_instruction]
    rw [hser]
    unfold deserialize_instruction
    dsimp only
    rw [if_neg (by simp [i32ToLe_length] <;> omega)]
    rw [readI32_imm 0x13 a _ hh.1, readI32_imm2 0x13 a l rest hh.2]
    simp [serialize_instruction, i32ToLe_length] <;> omega
  | MemWrite a vs =>
    have hh := hwf
    simp only [wfInstr, Bool.and_eq_true, decide_eq_true_eq,
      Bool.not_eq_true', List.all_eq_true] at hh
    exact decode_encode_memwrite a vs rest hh.1.1.1
      (by have h2 := hh.1.1.2; cases vs <;> simp_all) hh.1.2
      (fun v hv => hh.2 v hv)
theorem deserialize_instructions_nil : deserialize_instructions [] = .ok [] := by
  unfold deserialize_instructions
  rfl

theorem deserialize_instructions_cons (bytes : List Nat) (hne : bytes ≠ [])
    (ins : Instruction) (n : Nat)
    (hd : deserialize_instruction bytes = .ok (ins, n)) :
    deserialize_instructions bytes =
      match deserialize_instructions (bytes.drop n) with
      | .error e => .error e
      | .ok rest => .ok (ins :: rest) := by
  conv_lhs => unfold deserialize_instructions
  rw [dif_neg hne]
  split
  · rename_i e heq
    rw [hd] at heq
    exact absurd heq (by simp)
  · rename_i ins2 n2 heq
    rw [hd] at heq
    injection heq with heq2
    injection heq2 with h1 h2
    subst h1
    subst h2
    rfl

/-- **C1 counterexample.** The claim asserts the round trip for *every*
program with decimal jump targets and `i32` operands.  But the decoder's
`MemWrite` arm demands at least 13 bytes up front while an encoded
`MemWrite(addr, [])` occupies only 9, so the 9-byte encoding of the
one-instruction program `[MemWrite(0, [])]` is rejected as an incomplete
instruction instead of decoding back to the program. -/
theorem c1_counterexample :
    deserialize_instructions (serialize_instructions [.MemWrite 0 []]) =
      .error "Incomplete MemWrite instruction" := by
  have h : serialize_instructions [.MemWrite 0 []] =
      [0x10, 0, 0, 0, 0, 0, 0, 0, 0] := by decide
  rw [h]
  unfold deserialize_instructions
  rw [dif_neg (by decide)]
  have h2 : deserialize_instruction [0x10, 0, 0, 0, 0, 0, 0, 0, 0] =
      .error "Incomplete MemWrite instruction" := by rfl
  split
  · rename_i e heq
    rw [h2] at heq
    injection heq with he
    rw [he]
  · rename_i ins n heq
    rw [h2] at heq
    exact absurd heq (by simp)

/-- **C1 (amended).** Codec round trip: for every `Program` whose
`Jiz`/`Jnz` targets are decimal strings of non-negative integers, whose
other operands are in-range `i32` values (with `MemWrite` value counts
fitting the `u32` count field), and in which every `MemWrite` carries at
least one value, decoding the encoding yields the original `Program`.
(The non-empty-value condition is forced by the counterexample: the
decoder requires 13 bytes for a `MemWrite` but a zero-value `MemWrite`
encodes to 9.) -/
theorem c1_codec_round_trip (p : List Instruction)
    (h : ∀ ins ∈ p, wfInstr ins = true) :
    deserialize_instructions (serialize_instructions p) = .ok p := by
  induction p with
  | nil =>
    exact deserialize_instructions_nil
  | cons ins p' ih =>
    have hwf : wfInstr ins = true := h ins (by simp)
    have hrest : ∀ i ∈ p', wfInstr i = true := fun i hi => h i (by simp [hi])
    have hser : serialize_instructions (ins :: p') =
        serialize_instruction ins ++ serialize_instructions p' := by
      simp [serialize_instructions]
    rw [hser]
    rw [deserialize_instructions_cons _
      (by simp [serialize_instruction_ne_nil])
      ins (serialize_instruction ins).length
      (decode_encode_one ins hwf (serialize_instructions p'))]
    rw [List.drop_left]
    rw [ih hrest]

/-- Witness for C1 at a concrete program covering tags, immediates,
strings and bulk writes. -/
theorem c1_witness :
    (∀ ins ∈ ([.Push 123, .Dup, .Add, .MemWrite 0 [1, 2, 3], .Print 0 3,
        .Jiz "5", .Jnz "0", .MemWriteS 4 2, .MemRead 7, .DivS (-8),
        .Ret] : List Instruction), wfInstr ins = true) ∧
    deserialize_instructions (serialize_instructions
        [.Push 123, .Dup, .Add, .MemWrite 0 [1, 2, 3], .Print 0 3,
         .Jiz "5", .Jnz "0", .MemWriteS 4 2, .MemRead 7, .DivS (-8),
         .Ret]) =
      .ok [.Push 123, .Dup, .Add, .MemWrite 0 [1, 2, 3], .Print 0 3,
        .Jiz "5", .Jnz "0", .MemWriteS 4 2, .MemRead 7, .DivS (-8),
        .Ret] :=
  ⟨by decide, c1_codec_round_trip _ (by decide)⟩
